import Mathlib

/-!
Verification of the michigrad scalar autodiff engine (engine.py) and its
neural-network composition layer (nn.py) against its specification.

The computation graph is embedded as an arena: a list of nodes, where a
node's position in the list is its identity (Python object identity) and the
operand edges of a node are list indices that, for graphs built through the
constructors below, always point to strictly earlier positions.  Scalar data
is modelled by the rationals; every numeric value appearing in the claims is
rational, and no claim depends on rounding of IEEE floats.  A node's mutable
gradient accumulator (Value.grad) is modelled by an explicit gradient map
from node identities to rationals that every pass threads through.
-/

/-- The operation that created a node (Value._op), together with the
operand identities as recorded by the closures of engine.py.  The operand
lists keep multiplicity: in multiply(a, a) the closure mentions a twice even
though the traversal set Value._prev stores it once. -/
inductive Op where
  | leaf
  | add (l r : Nat)
  | mul (l r : Nat)
  | pow (b : Nat) (e : Int)
  | relu (a : Nat)
deriving DecidableEq, Repr

/-- One scalar node of the graph: Value.data plus the provenance needed to
reconstruct gradient flow (engine.py, Value.__init__).  The grad field of
the Python object lives in the separate gradient map; the name field is
cosmetic and omitted. -/
structure Value where
  data : ℚ
  op : Op
deriving DecidableEq, Repr

/-- Forward value stored at node i (Value.data), 0 for an index outside the
arena (no claim ever reads one). -/
def dataOf (g : List Value) (i : Nat) : ℚ :=
  (g[i]?.map Value.data).getD 0

/-- Operation stored at node i (Value._op), leaf outside the arena. -/
def opOf (g : List Value) (i : Nat) : Op :=
  (g[i]?.map Value.op).getD Op.leaf

/-- The operand tuple _children passed to Value.__init__, with
multiplicity. -/
def rawOperands : Op → List Nat
  | Op.leaf => []
  | Op.add l r => [l, r]
  | Op.mul l r => [l, r]
  | Op.pow b _ => [b]
  | Op.relu a => [a]

/-- Value._prev, i.e. set(_children): the operand identities of node v with
duplicates removed (engine.py line 40). -/
def childrenOf (g : List Value) (v : Nat) : List Nat :=
  (rawOperands (opOf g v)).dedup

/-- Wrapping a literal as a leaf node: Value(data).  Returns the grown arena
and the identity of the new node. -/
def mkLeaf (g : List Value) (x : ℚ) : List Value × Nat :=
  (g ++ [⟨x, Op.leaf⟩], g.length)

/-- Value.__add__: a fresh node whose data is the sum of the operand data,
with both operands recorded. -/
def mkAdd (g : List Value) (i j : Nat) : List Value × Nat :=
  (g ++ [⟨dataOf g i + dataOf g j, Op.add i j⟩], g.length)

/-- Value.__mul__: a fresh node whose data is the product of the operand
data. -/
def mkMul (g : List Value) (i j : Nat) : List Value × Nat :=
  (g ++ [⟨dataOf g i * dataOf g j, Op.mul i j⟩], g.length)

/-- Value.relu: data is 0.0 if self.data < 0 else self.data
(engine.py line 130). -/
def mkRelu (g : List Value) (i : Nat) : List Value × Nat :=
  (g ++ [⟨if dataOf g i < 0 then 0 else dataOf g i, Op.relu i⟩], g.length)

/-- Value.__pow__ with an integer exponent.  Python evaluates
self.data ** other while building the node, which raises ZeroDivisionError
exactly when the base is 0 and the exponent is negative; that failure is
modelled as none, and then no node is constructed. -/
def mkPow (g : List Value) (i : Nat) (e : Int) : Option (List Value × Nat) :=
  if dataOf g i = 0 ∧ e < 0 then none
  else some (g ++ [⟨dataOf g i ^ e, Op.pow i e⟩], g.length)

/-- Value.__truediv__: self * other ** -1.  The power node is built first;
if it fails nothing at all is constructed. -/
def mkDiv (g : List Value) (i j : Nat) : Option (List Value × Nat) :=
  match mkPow g j (-1) with
  | none => none
  | some gk => some (mkMul gk.1 i gk.2)

/-- Point update of a gradient map: p.grad = x. -/
def setg (m : Nat → ℚ) (i : Nat) (x : ℚ) : Nat → ℚ :=
  fun n => if n = i then x else m n

/-- Additive update of a gradient map: p.grad += x, the only way the
backward closures of engine.py ever touch an operand accumulator. -/
def bump (m : Nat → ℚ) (i : Nat) (x : ℚ) : Nat → ℚ :=
  fun n => if n = i then m i + x else m n

/-- The _backward closure attached to a node created by the given operation,
reading the node's own accumulator at identity v and adding the weighted
contributions into the operand accumulators, statement by statement in the
source order of engine.py.  For pow the rule is
self.grad += (other * self.data ** (other - 1)) * out.grad; the rational
zpow puts the junk value 0 at a zero base with negative exponent where
Python would raise, a case no claim exercises and mkPow cannot build. -/
def backStepAux (g : List Value) (op : Op) (m : Nat → ℚ) (v : Nat) : Nat → ℚ :=
  match op with
  | Op.leaf => m
  | Op.add l r =>
      let m1 := bump m l (m v)
      bump m1 r (m1 v)
  | Op.mul l r =>
      let m1 := bump m l (dataOf g r * m v)
      bump m1 r (dataOf g l * m1 v)
  | Op.pow b e =>
      bump m b ((e : ℚ) * dataOf g b ^ (e - 1) * m v)
  | Op.relu a =>
      bump m a ((if 0 < dataOf g v then (1 : ℚ) else 0) * m v)

/-- Firing v._backward() for the node stored at identity v. -/
def backStep (g : List Value) (m : Nat → ℚ) (v : Nat) : Nat → ℚ :=
  backStepAux g (opOf g v) m v

/-- Invoking the _backward closures over a list of node identities in list
order. -/
def runBack (g : List Value) (l : List Nat) (m : Nat → ℚ) : Nat → ℚ :=
  l.foldl (backStep g) m

/-- The recursive helper build_topo of Value.backward: a depth-first
post-order traversal over Value._prev keeping a visited list and appending
each node after all of its children.  The state is (visited, topo).  Python
has no fuel argument; here fuel only serves termination, and because every
operand identity of a well-formed node is strictly smaller than the node's
own identity, any call with fuel above the start node never reaches the
fuel-exhausted branch, so the function agrees with the source on every
graph the constructors can build. -/
def dfsGo (g : List Value) : Nat → Nat → List Nat × List Nat → List Nat × List Nat
  | 0, _, st => st
  | fuel + 1, v, st =>
      if v ∈ st.1 then st
      else
        let st2 := (childrenOf g v).foldl (fun s c => dfsGo g fuel c s) (v :: st.1, st.2)
        (st2.1, st2.2 ++ [v])

/-- build_topo(self) run from the root on the empty state. -/
def buildTopo (g : List Value) (root : Nat) : List Nat × List Nat :=
  dfsGo g (root + 1) root ([], [])

/-- Value.backward: build the topological order, seed the root's
accumulator to 1 by assignment, then fire each node's closure in reverse
topological order.  Takes and returns the whole gradient map; no
accumulator other than the root's is written except by the += of the
closures. -/
def backward (g : List Value) (root : Nat) (m : Nat → ℚ) : Nat → ℚ :=
  runBack g (buildTopo g root).2.reverse (setg m root 1)

/-- Module.zero_grad (nn.py lines 12-18): for p in self.parameters():
p.grad = 0.  Only the listed parameter identities are cleared. -/
def zeroGrad (ps : List Nat) (m : Nat → ℚ) : Nat → ℚ :=
  ps.foldl (fun acc p => setg acc p 0) m

/-- Executable well-formedness of an arena: every operand identity recorded
at position v is strictly smaller than v.  Every graph produced by the
constructors above satisfies it; it is exactly the acyclicity-by-
construction invariant of the data model. -/
def WFb (g : List Value) : Bool :=
  (List.range g.length).all fun v =>
    (rawOperands (opOf g v)).all fun c => decide (c < v)

/-- The lists of node identities that can arise as the topo accumulator of
build_topo: each element is appended only after all of its children are
already present. -/
inductive PostList (g : List Value) : List Nat → Prop where
  | nil : PostList g []
  | snoc {l : List Nat} {v : Nat} : PostList g l →
      (∀ c ∈ childrenOf g v, c ∈ l) → PostList g (l ++ [v])

/-- A neuron of nn.py as graph data: the identities of its weight leaves
(self.w) and of its bias leaf (self.b). -/
structure Neuron where
  w : List Nat
  b : Nat
deriving DecidableEq, Repr

/-- One step of the running sum in Neuron.__call__: the generator yields
wi * xi (one fresh multiply node) and sum adds it to the accumulator (one
fresh add node, accumulator on the left). -/
def neuronStep (acc : List Value × Nat) (wx : Nat × Nat) : List Value × Nat :=
  let gm := mkMul acc.1 wx.1 wx.2
  mkAdd gm.1 acc.2 gm.2

/-- Neuron.__call__ (nn.py line 56):
sum((wi * xi for wi, xi in zip(self.w, x)), self.b).  zip silently stops at
the shorter of the two lists and sum starts from the bias node, which is
returned unchanged when the zip is empty.  Total: no input length can make
it fail. -/
def neuronCall (g : List Value) (n : Neuron) (x : List Nat) : List Value × Nat :=
  (n.w.zip x).foldl neuronStep (g, n.b)

/-- Layer.__call__ (nn.py line 165): every neuron of the layer is applied
to the same input identities; the outputs are collected in order.  The
source additionally unwraps a singleton list to its only element, a change
of Python type that does not affect which nodes exist or their data. -/
def layerCall (g : List Value) (ns : List Neuron) (x : List Nat) : List Value × List Nat :=
  ns.foldl (fun acc n =>
    let r := neuronCall acc.1 n x
    (r.1, acc.2 ++ [r.2])) (g, [])

/-- MLP.__call__ exactly as written (nn.py lines 213-215):
for layer in self.layers: z = layer(x) and then return z.  The loop
variable x is never rebound, so every layer is applied to the original
input identities and only the final layer's result survives in z; with an
empty layer list the source raises because z is unbound, modelled by
none. -/
def mlpCall (g : List Value) (ls : List (List Neuron)) (x : List Nat) :
    List Value × Option (List Nat) :=
  ls.foldl (fun acc l =>
    let r := layerCall acc.1 l x
    (r.1, some r.2)) (g, none)

/-- Modelled from the spec, for comparison with mlpCall: a network holds an
ordered list of layers, feeding each layer's output vector as the next
layer's input vector; the final layer's output is the network's output. -/
def mlpCallSpec (g : List Value) (ls : List (List Neuron)) (x : List Nat) :
    List Value × List Nat :=
  ls.foldl (fun acc l => layerCall acc.1 l acc.2) (g, x)

/-- The runtime classification of an exponent argument handed to
Value.__pow__, as far as the isinstance check on engine.py line 107 can
see it: a Python int, a finite float, one of the non-finite floats, or a
value of some non-numeric type. -/
inductive PyScalar where
  | int (n : Int)
  | finiteFloat (q : ℚ)
  | inf
  | negInf
  | nan
  | nonNumeric
deriving DecidableEq, Repr

/-- isinstance(other, (int, float)): every float, finite or not, passes. -/
def isIntOrFloat : PyScalar → Bool
  | PyScalar.nonNumeric => false
  | _ => true

/-- The call-time argument check of Value.__pow__ (the assert on engine.py
lines 107-109): true exactly when the call is rejected before any node is
constructed. -/
def powRejectsExponent (e : PyScalar) : Bool :=
  !(isIntOrFloat e)

/-- Whether the exponent is a finite real number, the condition the
specification says should be required. -/
def isFiniteScalar : PyScalar → Bool
  | PyScalar.int _ => true
  | PyScalar.finiteFloat _ => true
  | _ => false

/-- Leaves a, b, c and the graph of add(multiply(a, b), multiply(a, c)):
identities a = 0, b = 1, c = 2, the two products 3 and 4, the root 5. -/
def fanoutGraph (va vb vc : ℚ) : List Value :=
  let g0 := mkLeaf [] va
  let g1 := mkLeaf g0.1 vb
  let g2 := mkLeaf g1.1 vc
  let g3 := mkMul g2.1 g0.2 g1.2
  let g4 := mkMul g3.1 g0.2 g2.2
  (mkAdd g4.1 g3.2 g4.2).1

/-- The graph of multiply(a, a) for a leaf a with value 3: a = 0, the
product node 1. -/
def selfUseGraph : List Value :=
  (mkMul (mkLeaf [] 3).1 0 0).1

/-- The graph of relu(a) for a leaf a with value exactly 0: a = 0, the
relu node 1. -/
def reluZeroGraph : List Value :=
  (mkRelu (mkLeaf [] 0).1 0).1

/-- A training-shaped graph with an intermediate node: parameters a = 0
(value 2), b = 1 (value 3), c = 2 (value 1), the product node 3 and the
root add(multiply(a, b), c) = 4. -/
def staleGraph : List Value :=
  let g0 := mkLeaf [] 2
  let g1 := mkLeaf g0.1 3
  let g2 := mkLeaf g1.1 1
  let g3 := mkMul g2.1 g0.2 g1.2
  (mkAdd g3.1 g3.2 g2.2).1

/-- A two-node chain for the amended reset claim: parameters a = 0
(value 2) and b = 1 (value 3) feeding the root add node 2 directly, so the
parameters are the only non-root reachable nodes. -/
def flatGraph : List Value :=
  let g0 := mkLeaf [] 2
  let g1 := mkLeaf g0.1 3
  (mkAdd g1.1 g0.2 g1.2).1

/-- Leaves for a two-layer network with one neuron per layer: input x = 0
(value 2), first-layer weight 1 (value 3) and bias 2 (value 0),
second-layer weight 3 (value 5) and bias 4 (value 0). -/
def chainGraph : List Value :=
  let g0 := mkLeaf [] 2
  let g1 := mkLeaf g0.1 3
  let g2 := mkLeaf g1.1 0
  let g3 := mkLeaf g2.1 5
  (mkLeaf g3.1 0).1

/-- The layers of that network: one neuron with weight 1 and bias 2, then
one neuron with weight 3 and bias 4. -/
def chainLayers : List (List Neuron) :=
  [[⟨[1], 2⟩], [⟨[3], 4⟩]]

/-- An arena for exercising division by a zero-valued node: node 0 holds 5,
node 1 holds 0. -/
def divZeroGraph : List Value :=
  (mkLeaf (mkLeaf [] 5).1 0).1

/-- An arena for the neuron with mismatched lengths: weights 0 (value 2)
and 1 (value 3), bias 2 (value 1), inputs 3 (value 5), 4 (value 7) and
5 (value 11). -/
def mismatchGraph : List Value :=
  let g0 := mkLeaf [] 2
  let g1 := mkLeaf g0.1 3
  let g2 := mkLeaf g1.1 1
  let g3 := mkLeaf g2.1 5
  let g4 := mkLeaf g3.1 7
  (mkLeaf g4.1 11).1

/-- The two-weight neuron over mismatchGraph. -/
def mismatchNeuron : Neuron := ⟨[0, 1], 2⟩

/-- A prior gradient assignment that is nonzero at the intermediate node 3
of the fan-out graph, used to observe the frame behaviour of the driver. -/
def priorGrads : Nat → ℚ :=
  fun n => if n = 3 then 5 else 0

/-- State invariant of the build_topo traversal: the topo accumulator has
no duplicates, is contained in the visited list, grew as a PostList, and
the visited list stays inside the arena. -/
def StInv (g : List Value) (st : List Nat × List Nat) : Prop :=
  st.2.Nodup ∧ (∀ x ∈ st.2, x ∈ st.1) ∧ PostList g st.2 ∧ (∀ x ∈ st.1, x < g.length)

/-- A node that has been visited but not yet appended to the topo order:
exactly the nodes on the current recursion chain of build_topo. -/
def Grey (st : List Nat × List Nat) (x : Nat) : Prop :=
  x ∈ st.1 ∧ x ∉ st.2

/-- What one completed call of the traversal guarantees, relating the state
before to the state after: the invariant still holds, the start node has
been visited, the set of grey nodes is unchanged, the visited list only
grew, and the topo order was extended by in-range nodes at most the start
node. -/
def DfsPost (g : List Value) (v : Nat) (st st2 : List Nat × List Nat) : Prop :=
  StInv g st2 ∧ v ∈ st2.1 ∧ (∀ x, Grey st2 x ↔ Grey st x) ∧
  (∀ x ∈ st.1, x ∈ st2.1) ∧
  (∃ tl, st2.2 = st.2 ++ tl ∧ ∀ x ∈ tl, x ≤ v ∧ x < g.length) ∧
  (∀ x ∈ st2.1, x ∈ st.1 ∨ (x ≤ v ∧ x < g.length))

/-! Helper lemmas about the arena. -/

/-- Appending fresh nodes never changes the data of an existing node. -/
theorem dataOf_append (g t : List Value) (i : Nat) (h : i < g.length) :
    dataOf (g ++ t) i = dataOf g i := by
  unfold dataOf
  rw [List.getElem?_append_left h]

/-- The data of the freshly appended node. -/
theorem dataOf_concat (g : List Value) (v : Value) :
    dataOf (g ++ [v]) g.length = v.data := by
  unfold dataOf
  rw [List.getElem?_concat_length]
  rfl

/-- Appending fresh nodes never changes the operation of an existing node. -/
theorem opOf_append (g t : List Value) (i : Nat) (h : i < g.length) :
    opOf (g ++ t) i = opOf g i := by
  unfold opOf
  rw [List.getElem?_append_left h]


/-- One step of the neuron sum: the arena is only extended, the new
accumulator node is in range, and its data adds the product of the pair to
the previous accumulator's data. -/
theorem neuronStep_spec (g : List Value) (a : Nat) (p : Nat × Nat) (ha : a < g.length) :
    ∃ t : List Value,
      (neuronStep (g, a) p).1 = g ++ t ∧
      (neuronStep (g, a) p).2 < (neuronStep (g, a) p).1.length ∧
      dataOf (neuronStep (g, a) p).1 (neuronStep (g, a) p).2 =
        dataOf g a + dataOf g p.1 * dataOf g p.2 := by
  refine ⟨[Value.mk (dataOf g p.1 * dataOf g p.2) (Op.mul p.1 p.2),
      Value.mk (dataOf (g ++ [Value.mk (dataOf g p.1 * dataOf g p.2) (Op.mul p.1 p.2)]) a +
        dataOf (g ++ [Value.mk (dataOf g p.1 * dataOf g p.2) (Op.mul p.1 p.2)]) g.length)
        (Op.add a g.length)], ?_, ?_, ?_⟩
  · show (g ++ [Value.mk (dataOf g p.1 * dataOf g p.2) (Op.mul p.1 p.2)]) ++ _ = _
    rw [List.append_assoc]
    rfl
  · show (g ++ [Value.mk (dataOf g p.1 * dataOf g p.2) (Op.mul p.1 p.2)]).length <
      ((g ++ [Value.mk (dataOf g p.1 * dataOf g p.2) (Op.mul p.1 p.2)]) ++ [_]).length
    simp
  · show dataOf ((g ++ [Value.mk (dataOf g p.1 * dataOf g p.2) (Op.mul p.1 p.2)]) ++ [_])
      ((g ++ [Value.mk (dataOf g p.1 * dataOf g p.2) (Op.mul p.1 p.2)]).length) = _
    rw [dataOf_concat]
    show dataOf (g ++ [Value.mk (dataOf g p.1 * dataOf g p.2) (Op.mul p.1 p.2)]) a +
      dataOf (g ++ [Value.mk (dataOf g p.1 * dataOf g p.2) (Op.mul p.1 p.2)]) g.length = _
    rw [dataOf_append g _ a ha, dataOf_concat]

/-- Running the sum of Neuron.__call__ over any list of weight/input
identity pairs: the result node's data is the accumulator's data plus the
sum of the pairwise products. -/
theorem neuronFold_data :
    ∀ (ps : List (Nat × Nat)) (g : List Value) (a : Nat),
      a < g.length → (∀ p ∈ ps, p.1 < g.length ∧ p.2 < g.length) →
      dataOf (ps.foldl neuronStep (g, a)).1 (ps.foldl neuronStep (g, a)).2 =
        dataOf g a + (ps.map fun p => dataOf g p.1 * dataOf g p.2).sum := by
  intro ps
  induction ps with
  | nil =>
      intro g a ha hp
      simp
  | cons p ps ih =>
      intro g a ha hp
      obtain ⟨t, h1, h2, h3⟩ := neuronStep_spec g a p ha
      have hglen : g.length ≤ (neuronStep (g, a) p).1.length := by
        rw [h1, List.length_append]
        omega
      rw [List.foldl_cons,
        ih (neuronStep (g, a) p).1 (neuronStep (g, a) p).2 h2
          (by
            intro q hq
            have hq1 := (hp q (List.mem_cons_of_mem p hq)).1
            have hq2 := (hp q (List.mem_cons_of_mem p hq)).2
            omega)]
      have hmap : (ps.map fun q => dataOf (neuronStep (g, a) p).1 q.1 *
          dataOf (neuronStep (g, a) p).1 q.2) =
          ps.map fun q => dataOf g q.1 * dataOf g q.2 := by
        apply List.map_congr_left
        intro q hq
        have hq1 := (hp q (List.mem_cons_of_mem p hq)).1
        have hq2 := (hp q (List.mem_cons_of_mem p hq)).2
        rw [h1, dataOf_append g t q.1 hq1, dataOf_append g t q.2 hq2]
      rw [hmap, h3, List.map_cons, List.sum_cons]
      ring

/-! Claim theorems. -/

/-- C9: a node's operand collection Value._prev never contains a duplicate
identity, even when an operation is applied with the same operand in both
positions: multiply(a, a) records a exactly once. -/
theorem operand_children_nodup :
    (∀ (g : List Value) (v : Nat), (childrenOf g v).Nodup) ∧
      childrenOf selfUseGraph 1 = [0] :=
  ⟨fun _ _ => List.nodup_dedup _, by decide⟩

/-- C3 counterexample: the call-time check of Value.__pow__ does not reject
the non-finite exponent float inf; the assert passes and a node is
constructed, contradicting the claim that every non-finite exponent fails
with InvalidExponent. -/
theorem pow_accepts_infinite_exponent :
    powRejectsExponent PyScalar.inf = false ∧ isFiniteScalar PyScalar.inf = false :=
  ⟨rfl, rfl⟩

/-- C3 amended: Value.__pow__ rejects the call before constructing a node
exactly when the exponent is not an int or float at all; non-finite float
exponents such as inf or nan pass the isinstance assert. -/
theorem pow_rejects_iff_non_numeric (e : PyScalar) :
    powRejectsExponent e = true ↔ e = PyScalar.nonNumeric := by
  cases e <;> simp [powRejectsExponent, isIntOrFloat]

/-- C4: dividing by a node whose value is 0 fails while the power node is
being constructed (Python raises ZeroDivisionError evaluating
b.data ** -1), so no node at all is returned. -/
theorem div_by_zero_node_fails (g : List Value) (i j : Nat) (h : dataOf g j = 0) :
    mkDiv g i j = none := by
  unfold mkDiv mkPow
  rw [if_pos ⟨h, by norm_num⟩]

/-- Witness for C4 at a concrete arena: node 1 holds the value 0 and the
division of node 0 by node 1 returns no node. -/
theorem div_by_zero_node_fails_witness :
    dataOf divZeroGraph 1 = 0 ∧ mkDiv divZeroGraph 0 1 = none :=
  ⟨rfl, div_by_zero_node_fails divZeroGraph 0 1 rfl⟩

/-- C10: a neuron called on an input list of any length silently truncates
to the first min(weights, inputs) pairs (zip stops at the shorter list) and
returns the bias plus the truncated weighted sum; the call is total, no
length check is performed. -/
theorem neuron_call_truncates_to_min (g : List Value) (n : Neuron) (x : List Nat)
    (hb : n.b < g.length) (hw : ∀ i ∈ n.w, i < g.length) (hx : ∀ j ∈ x, j < g.length) :
    (n.w.zip x).length = min n.w.length x.length ∧
    dataOf (neuronCall g n x).1 (neuronCall g n x).2 =
      dataOf g n.b + ((n.w.zip x).map fun p => dataOf g p.1 * dataOf g p.2).sum := by
  refine ⟨List.length_zip .., ?_⟩
  unfold neuronCall
  exact neuronFold_data (n.w.zip x) g n.b hb fun p hp =>
    ⟨hw p.1 (List.of_mem_zip hp).1, hx p.2 (List.of_mem_zip hp).2⟩

/-- Witness for C10: a neuron with two weights applied to three inputs
raises nothing and returns bias plus the sum over the two zipped pairs. -/
theorem neuron_call_truncates_to_min_witness :
    (mismatchNeuron.w.zip [3, 4, 5]).length = min mismatchNeuron.w.length 3 ∧
    dataOf (neuronCall mismatchGraph mismatchNeuron [3, 4, 5]).1
        (neuronCall mismatchGraph mismatchNeuron [3, 4, 5]).2 =
      dataOf mismatchGraph mismatchNeuron.b +
        ((mismatchNeuron.w.zip [3, 4, 5]).map fun p =>
          dataOf mismatchGraph p.1 * dataOf mismatchGraph p.2).sum :=
  neuron_call_truncates_to_min mismatchGraph mismatchNeuron [3, 4, 5]
    (by decide) (by decide) (by decide)

set_option maxHeartbeats 2000000 in
/-- C5: fan-out accumulation.  For leaves a, b, c with any values and zero
initial gradients, running backward from add(multiply(a, b),
multiply(a, c)) leaves a's gradient equal to b.value + c.value: both
consumers contribute and neither overwrites the other. -/
theorem fanout_gradient_accumulates (va vb vc : ℚ) :
    backward (fanoutGraph va vb vc) 5 (fun _ => 0) 0 = vb + vc := by
  have h5 : opOf (fanoutGraph va vb vc) 5 = Op.add 3 4 := rfl
  have h4 : opOf (fanoutGraph va vb vc) 4 = Op.mul 0 2 := rfl
  have h3 : opOf (fanoutGraph va vb vc) 3 = Op.mul 0 1 := rfl
  have h2 : opOf (fanoutGraph va vb vc) 2 = Op.leaf := rfl
  have h1 : opOf (fanoutGraph va vb vc) 1 = Op.leaf := rfl
  have h0 : opOf (fanoutGraph va vb vc) 0 = Op.leaf := rfl
  have d0 : dataOf (fanoutGraph va vb vc) 0 = va := rfl
  have d1 : dataOf (fanoutGraph va vb vc) 1 = vb := rfl
  have d2 : dataOf (fanoutGraph va vb vc) 2 = vc := rfl
  have ht : (buildTopo (fanoutGraph va vb vc) 5).2 = [0, 1, 3, 2, 4, 5] := rfl
  have hrev : ([0, 1, 3, 2, 4, 5] : List Nat).reverse = [5, 4, 2, 3, 1, 0] := rfl
  rw [backward, ht, hrev]
  simp only [runBack, List.foldl, backStep, h5, h4, h3, h2, h1, h0, backStepAux, d0, d1, d2]
  norm_num [bump, setg]
  ring

set_option maxHeartbeats 1000000 in
/-- C6: multiply(a, a) on a leaf with value 3 has forward value 9, and
after backward the leaf's gradient is 6: both occurrences of the shared
operand contribute even though Value._prev stores the operand once. -/
theorem self_use_square_forward_and_gradient :
    dataOf selfUseGraph 1 = 9 ∧
    backward selfUseGraph 1 (fun _ => 0) 0 = 6 ∧
    childrenOf selfUseGraph 1 = [0] := by
  refine ⟨?_, ?_, by decide⟩
  · have h : dataOf selfUseGraph 1 = (3 : ℚ) * 3 := rfl
    rw [h]
    norm_num
  · have hop1 : opOf selfUseGraph 1 = Op.mul 0 0 := rfl
    have hop0 : opOf selfUseGraph 0 = Op.leaf := rfl
    have hd0 : dataOf selfUseGraph 0 = 3 := rfl
    have ht : (buildTopo selfUseGraph 1).2 = [0, 1] := rfl
    have hrev : ([0, 1] : List Nat).reverse = [1, 0] := rfl
    rw [backward, ht, hrev]
    simp only [runBack, List.foldl, backStep, hop1, hop0, backStepAux, hd0]
    norm_num [bump, setg]

set_option maxHeartbeats 1000000 in
/-- C8: relu applied to a leaf whose value is exactly 0 has forward value 0
and, after backward with zero initial gradients, adds gradient contribution
0 to the leaf, because the rule propagates only when the result's value is
strictly positive. -/
theorem relu_at_zero_forward_and_gradient :
    dataOf reluZeroGraph 1 = 0 ∧ backward reluZeroGraph 1 (fun _ => 0) 0 = 0 := by
  refine ⟨rfl, ?_⟩
  have hop1 : opOf reluZeroGraph 1 = Op.relu 0 := rfl
  have hop0 : opOf reluZeroGraph 0 = Op.leaf := rfl
  have hd1 : dataOf reluZeroGraph 1 = 0 := rfl
  have ht : (buildTopo reluZeroGraph 1).2 = [0, 1] := rfl
  have hrev : ([0, 1] : List Nat).reverse = [1, 0] := rfl
  rw [backward, ht, hrev]
  simp only [runBack, List.foldl, backStep, hop1, hop0, backStepAux, hd1]
  norm_num [bump, setg]

set_option maxHeartbeats 1000000 in
/-- C1: the network call as written applies every layer to the original
input and keeps only the last layer's result.  On a two-layer network
(weights 3 then 5, biases 0, input 2) the source returns the node with data
5 * 2 = 10, whereas feeding each layer's output into the next layer, as the
specification states, yields data 5 * (3 * 2) = 30.  The constructor of
MLP sizes layer i + 1 for inputs of the width of layer i's output, so the
chained reading is the intended one and the loop body that fails to rebind
its input is a slip in the code. -/
theorem mlp_call_ignores_previous_layers :
    (mlpCall chainGraph chainLayers [0]).2 = some [8] ∧
    dataOf (mlpCall chainGraph chainLayers [0]).1 8 = 10 ∧
    (mlpCallSpec chainGraph chainLayers [0]).2 = [8] ∧
    dataOf (mlpCallSpec chainGraph chainLayers [0]).1 8 = 30 := by
  refine ⟨rfl, ?_, rfl, ?_⟩
  · have h : dataOf (mlpCall chainGraph chainLayers [0]).1 8 = (0 : ℚ) + 5 * 2 := rfl
    rw [h]
    norm_num
  · have h : dataOf (mlpCallSpec chainGraph chainLayers [0]).1 8 =
        (0 : ℚ) + 5 * (0 + 3 * 2) := rfl
    rw [h]
    norm_num

set_option maxHeartbeats 2000000 in
/-- C2 counterexample: on the graph add(multiply(a, b), c) with a = 2,
b = 3, c = 1, running backward, then zero_grad over the parameters a, b, c,
then backward again from the same root gives a the gradient 6, not the 3 of
the first run: the intermediate product node kept its stale accumulator 1,
was re-seeded through the root and doubled the contribution. -/
theorem zero_grad_then_backward_differs :
    backward staleGraph 4 (zeroGrad [0, 1, 2] (backward staleGraph 4 (fun _ => 0))) 0 ≠
      backward staleGraph 4 (fun _ => 0) 0 ∧
    backward staleGraph 4 (fun _ => 0) 0 = 3 ∧
    backward staleGraph 4 (zeroGrad [0, 1, 2] (backward staleGraph 4 (fun _ => 0))) 0 = 6 := by
  have hop4 : opOf staleGraph 4 = Op.add 3 2 := rfl
  have hop3 : opOf staleGraph 3 = Op.mul 0 1 := rfl
  have hop2 : opOf staleGraph 2 = Op.leaf := rfl
  have hop1 : opOf staleGraph 1 = Op.leaf := rfl
  have hop0 : opOf staleGraph 0 = Op.leaf := rfl
  have hd0 : dataOf staleGraph 0 = 2 := rfl
  have hd1 : dataOf staleGraph 1 = 3 := rfl
  have ht : (buildTopo staleGraph 4).2 = [0, 1, 3, 2, 4] := rfl
  have hrev : ([0, 1, 3, 2, 4] : List Nat).reverse = [4, 2, 3, 1, 0] := rfl
  set m1 := backward staleGraph 4 (fun _ => 0) with hm1
  have h1 : m1 0 = 3 := by
    rw [hm1, backward, ht, hrev]
    simp only [runBack, List.foldl, backStep, hop4, hop3, hop2, hop1, hop0, backStepAux,
      hd0, hd1]
    norm_num [bump, setg]
  have h3 : m1 3 = 1 := by
    rw [hm1, backward, ht, hrev]
    simp only [runBack, List.foldl, backStep, hop4, hop3, hop2, hop1, hop0, backStepAux,
      hd0, hd1]
    norm_num [bump, setg]
  have h6 : backward staleGraph 4 (zeroGrad [0, 1, 2] m1) 0 = 6 := by
    rw [backward, ht, hrev]
    simp only [runBack, List.foldl, backStep, hop4, hop3, hop2, hop1, hop0, backStepAux,
      hd0, hd1, zeroGrad]
    norm_num [bump, setg, h3]
  exact ⟨by rw [h6, h1]; norm_num, h1, h6⟩

/-- Pointwise reading of the executable well-formedness check. -/
theorem wfb_ops (g : List Value) (h : WFb g = true) :
    ∀ v, v < g.length → ∀ c ∈ rawOperands (opOf g v), c < v := by
  intro v hv c hc
  have h1 := List.all_eq_true.mp h v (List.mem_range.mpr hv)
  have h2 := List.all_eq_true.mp h1 c hc
  exact of_decide_eq_true h2

/-- Membership in the deduplicated operand list is membership in the raw
operand tuple. -/
theorem mem_childrenOf {g : List Value} {v c : Nat} :
    c ∈ childrenOf g v ↔ c ∈ rawOperands (opOf g v) :=
  List.mem_dedup

/-- The central invariant of build_topo: one completed traversal call from
any node below the fuel bound preserves the state invariant, visits the
start node, preserves the grey set, only grows the visited list, and
appends only in-range nodes at most the start node to the topo order. -/
theorem dfsGo_spec (g : List Value)
    (hWF : ∀ v, v < g.length → ∀ c ∈ rawOperands (opOf g v), c < v) :
    ∀ fuel v st, v < fuel → v < g.length → StInv g st → (∀ x, Grey st x → v < x) →
      DfsPost g v st (dfsGo g fuel v st) := by
  intro fuel
  induction fuel with
  | zero =>
      intro v st hvf
      exact absurd hvf (Nat.not_lt_zero v)
  | succ fuel IH =>
      intro v st hvf hvg hst hgrey
      by_cases hmem : v ∈ st.1
      · have hret : dfsGo g (fuel + 1) v st = st := by
          simp [dfsGo, hmem]
        rw [hret]
        exact ⟨hst, hmem, fun x => Iff.rfl, fun x hx => hx,
          ⟨[], (List.append_nil st.2).symm, by simp⟩, fun x hx => Or.inl hx⟩
      · have hret : dfsGo g (fuel + 1) v st =
            (((childrenOf g v).foldl (fun s c => dfsGo g fuel c s) (v :: st.1, st.2)).1,
              ((childrenOf g v).foldl (fun s c => dfsGo g fuel c s) (v :: st.1, st.2)).2
                ++ [v]) := by
          simp [dfsGo, hmem]
        have hlist : ∀ (cs : List Nat) (st0 : List Nat × List Nat),
            (∀ c ∈ cs, c < v) → StInv g st0 →
            (∀ x, Grey st0 x → v ≤ x) →
            StInv g (cs.foldl (fun s c => dfsGo g fuel c s) st0) ∧
            (∀ c ∈ cs, c ∈ (cs.foldl (fun s c => dfsGo g fuel c s) st0).1) ∧
            (∀ x, Grey (cs.foldl (fun s c => dfsGo g fuel c s) st0) x ↔ Grey st0 x) ∧
            (∀ x ∈ st0.1, x ∈ (cs.foldl (fun s c => dfsGo g fuel c s) st0).1) ∧
            (∃ tl, (cs.foldl (fun s c => dfsGo g fuel c s) st0).2 = st0.2 ++ tl ∧
              ∀ x ∈ tl, x < v ∧ x < g.length) ∧
            (∀ x ∈ (cs.foldl (fun s c => dfsGo g fuel c s) st0).1,
              x ∈ st0.1 ∨ (x < v ∧ x < g.length)) := by
          intro cs
          induction cs with
          | nil =>
              intro st0 _ hst0 _
              exact ⟨hst0, by simp, fun x => Iff.rfl, fun x hx => hx,
                ⟨[], (List.append_nil st0.2).symm, by simp⟩, fun x hx => Or.inl hx⟩
          | cons c cs ihc =>
              intro st0 hcs hst0 hg0
              have hcv : c < v := hcs c (List.mem_cons_self c cs)
              have hcg : c < g.length := lt_trans hcv hvg
              have hcf : c < fuel := by omega
              have h1 := IH c st0 hcf hcg hst0
                (fun x hx => lt_of_lt_of_le hcv (hg0 x hx))
              obtain ⟨hsi1, hcin1, hgrey1, hmono1, ⟨t1, ht1, ht1b⟩, hclass1⟩ := h1
              have h2 := ihc (dfsGo g fuel c st0)
                (fun d hd => hcs d (List.mem_cons_of_mem c hd)) hsi1
                (fun x hx => hg0 x ((hgrey1 x).mp hx))
              obtain ⟨hsi2, hin2, hgrey2, hmono2, ⟨t2, ht2, ht2b⟩, hclass2⟩ := h2
              have hfold : (c :: cs).foldl (fun s c => dfsGo g fuel c s) st0 =
                  cs.foldl (fun s c => dfsGo g fuel c s) (dfsGo g fuel c st0) := rfl
              rw [hfold]
              refine ⟨hsi2, ?_, ?_, ?_, ?_, ?_⟩
              · intro d hd
                rcases List.mem_cons.mp hd with hdc | hdcs
                · subst hdc
                  exact hmono2 d hcin1
                · exact hin2 d hdcs
              · intro x
                exact (hgrey2 x).trans (hgrey1 x)
              · intro x hx
                exact hmono2 x (hmono1 x hx)
              · refine ⟨t1 ++ t2, ?_, ?_⟩
                · rw [ht2, ht1, List.append_assoc]
                · intro x hx
                  rcases List.mem_append.mp hx with hx1 | hx2
                  · exact ⟨lt_of_le_of_lt (ht1b x hx1).1 hcv, (ht1b x hx1).2⟩
                  · exact ht2b x hx2
              · intro x hx
                rcases hclass2 x hx with hx1 | hx2
                · rcases hclass1 x hx1 with hy1 | hy2
                  · exact Or.inl hy1
                  · exact Or.inr ⟨lt_of_le_of_lt hy2.1 hcv, hy2.2⟩
                · exact Or.inr hx2
        have hvnotopo : v ∉ st.2 := fun hv2 => hmem (hst.2.1 v hv2)
        have hst0 : StInv g (v :: st.1, st.2) :=
          ⟨hst.1, fun x hx => List.mem_cons_of_mem v (hst.2.1 x hx), hst.2.2.1,
            fun x hx => by
              rcases List.mem_cons.mp hx with h | h
              · subst h; exact hvg
              · exact hst.2.2.2 x h⟩
        have hg0 : ∀ x, Grey (v :: st.1, st.2) x → v ≤ x := by
          intro x hx
          rcases List.mem_cons.mp hx.1 with h | h
          · omega
          · exact le_of_lt (hgrey x ⟨h, hx.2⟩)
        have hcsv : ∀ c ∈ childrenOf g v, c < v :=
          fun c hc => hWF v hvg c (mem_childrenOf.mp hc)
        obtain ⟨hsiF, hinF, hgreyF, hmonoF, ⟨tF, htF, htFb⟩, hclassF⟩ :=
          hlist (childrenOf g v) (v :: st.1, st.2) hcsv hst0 hg0
        rw [hret]
        set stF := (childrenOf g v).foldl (fun s c => dfsGo g fuel c s) (v :: st.1, st.2)
          with hstF
        have hvinF : v ∈ stF.1 := hmonoF v (List.mem_cons_self v st.1)
        have hvgreyF : Grey stF v := (hgreyF v).mpr ⟨List.mem_cons_self v st.1, hvnotopo⟩
        have hvnotF : v ∉ stF.2 := hvgreyF.2
        have hchF : ∀ c ∈ childrenOf g v, c ∈ stF.2 := by
          intro c hc
          have hc1 : c ∈ stF.1 := hinF c hc
          by_contra hc2
          have hcg : Grey (v :: st.1, st.2) c := (hgreyF c).mp ⟨hc1, hc2⟩
          have := hg0 c hcg
          have := hcsv c hc
          omega
        refine ⟨⟨?_, ?_, ?_, ?_⟩, ?_, ?_, ?_, ?_, ?_⟩
        · rw [List.nodup_append]
          refine ⟨hsiF.1, List.nodup_singleton v, ?_⟩
          intro a ha hb
          rw [List.mem_singleton] at hb
          subst hb
          exact hvnotF ha
        · intro x hx
          rcases List.mem_append.mp hx with h | h
          · exact hsiF.2.1 x h
          · rw [List.mem_singleton] at h
            subst h
            exact hvinF
        · exact PostList.snoc hsiF.2.2.1 hchF
        · exact hsiF.2.2.2
        · exact hvinF
        · intro x
          constructor
          · rintro ⟨hx1, hx2⟩
            have hx2a : x ∉ stF.2 := fun h => hx2 (List.mem_append_left _ h)
            have hx2b : x ≠ v := by
              intro h
              exact hx2 (List.mem_append_right _ (by simp [h]))
            have h0 : Grey (v :: st.1, st.2) x := (hgreyF x).mp ⟨hx1, hx2a⟩
            rcases List.mem_cons.mp h0.1 with h | h
            · exact absurd h hx2b
            · exact ⟨h, h0.2⟩
          · rintro ⟨hx1, hx2⟩
            have hvx : v < x := hgrey x ⟨hx1, hx2⟩
            have hxv : x ≠ v := by omega
            have hgF : Grey stF x :=
              (hgreyF x).mpr ⟨List.mem_cons_of_mem v hx1, hx2⟩
            refine ⟨hmonoF x (List.mem_cons_of_mem v hx1), ?_⟩
            intro h
            rcases List.mem_append.mp h with h | h
            · exact hgF.2 h
            · rw [List.mem_singleton] at h
              exact hxv h
        · intro x hx
          exact hmonoF x (List.mem_cons_of_mem v hx)
        · refine ⟨tF ++ [v], ?_, ?_⟩
          · show stF.2 ++ [v] = st.2 ++ (tF ++ [v])
            rw [htF]
            rw [List.append_assoc]
          · intro x hx
            rcases List.mem_append.mp hx with h | h
            · exact ⟨le_of_lt (htFb x h).1, (htFb x h).2⟩
            · rw [List.mem_singleton] at h
              subst h
              exact ⟨le_refl x, hvg⟩
        · intro x hx
          rcases hclassF x hx with h | h
          · rcases List.mem_cons.mp h with h1 | h1
            · subst h1
              exact Or.inr ⟨le_refl x, hvg⟩
            · exact Or.inl h1
          · exact Or.inr ⟨le_of_lt h.1, h.2⟩

/-- The topo order build_topo produces from the root of a well-formed
arena: no duplicates, post-ordered (each node after all its children),
containing the root, and consisting of in-range nodes at most the root. -/
theorem buildTopo_spec (g : List Value) (root : Nat)
    (hWF : WFb g = true) (hroot : root < g.length) :
    (buildTopo g root).2.Nodup ∧ PostList g (buildTopo g root).2 ∧
    root ∈ (buildTopo g root).2 ∧
    (∀ x ∈ (buildTopo g root).2, x ≤ root ∧ x < g.length) := by
  have h := dfsGo_spec g (wfb_ops g hWF) (root + 1) root ([], [])
    (by omega) hroot
    ⟨List.nodup_nil, by simp, PostList.nil, by simp⟩
    (fun x hx => absurd hx.1 (List.not_mem_nil x))
  obtain ⟨⟨hnd, hsub, hpost, hbound⟩, hvin, hgrey, _, ⟨tl, htl, htlb⟩, _⟩ := h
  have heq : buildTopo g root = dfsGo g (root + 1) root ([], []) := rfl
  rw [heq]
  refine ⟨hnd, hpost, ?_, ?_⟩
  · by_contra hno
    have : Grey (dfsGo g (root + 1) root ([], [])) root := ⟨hvin, hno⟩
    have h0 := (hgrey root).mp this
    exact List.not_mem_nil root h0.1
  · intro x hx
    rw [htl] at hx
    exact htlb x (by simpa using hx)

/-- Every child of a node listed in a PostList is itself listed. -/
theorem postList_closed {g : List Value} :
    ∀ {l : List Nat}, PostList g l → ∀ u ∈ l, ∀ c ∈ childrenOf g u, c ∈ l := by
  intro l h
  induction h with
  | nil =>
      intro u hu
      exact absurd hu (List.not_mem_nil u)
  | snoc hpl hc ih =>
      intro u hu c hcc
      rcases List.mem_append.mp hu with h1 | h1
      · exact List.mem_append_left _ (ih u h1 c hcc)
      · rw [List.mem_singleton] at h1
        subst h1
        exact List.mem_append_left _ (hc c hcc)

/-- In a PostList, the children of a node all occur strictly before it. -/
theorem postList_decomp {g : List Value} :
    ∀ {l : List Nat}, PostList g l → ∀ {pre : List Nat} {u : Nat} {post : List Nat},
      l = pre ++ u :: post → ∀ c ∈ childrenOf g u, c ∈ pre := by
  intro l h
  induction h with
  | nil =>
      intro pre u post heq
      exact absurd heq (by simp)
  | @snoc l v hpl hc ih =>
      intro pre u post heq
      rcases List.eq_nil_or_concat post with hpost | ⟨q, w, hq⟩
      · subst hpost
        have h2 : l ++ [v] = pre ++ [u] := heq
        have h3 := List.append_inj' h2 rfl
        have h4 : v = u := by
          have := h3.2
          simpa using this
        subst h4
        rw [← h3.1]
        exact hc
      · subst hq
        have h2 : l ++ [v] = (pre ++ u :: q) ++ [w] := by
          rw [heq]
          simp
        have h3 := List.append_inj' h2 rfl
        have h4 : v = w := by
          have := h3.2
          simpa using this
        exact ih h3.1

/-- A backward closure only writes the accumulators of its raw operands. -/
theorem backStepAux_apply_ne (g : List Value) (op : Op) (m : Nat → ℚ) (v n : Nat)
    (hn : n ∉ rawOperands op) : backStepAux g op m v n = m n := by
  cases op with
  | leaf => rfl
  | add l r =>
      simp only [rawOperands, List.mem_cons, List.not_mem_nil, or_false, not_or] at hn
      simp [backStepAux, bump, hn.1, hn.2]
  | mul l r =>
      simp only [rawOperands, List.mem_cons, List.not_mem_nil, or_false, not_or] at hn
      simp [backStepAux, bump, hn.1, hn.2]
  | pow b e =>
      simp only [rawOperands, List.mem_cons, List.not_mem_nil, or_false, not_or] at hn
      simp [backStepAux, bump, hn]
  | relu a =>
      simp only [rawOperands, List.mem_cons, List.not_mem_nil, or_false, not_or] at hn
      simp [backStepAux, bump, hn]

/-- Firing a node leaves every non-operand accumulator unchanged. -/
theorem backStep_apply_ne (g : List Value) (m : Nat → ℚ) (v n : Nat)
    (hn : n ∉ rawOperands (opOf g v)) : backStep g m v n = m n :=
  backStepAux_apply_ne g (opOf g v) m v n hn

/-- Running closures over nodes none of which has n as an operand leaves
n's accumulator unchanged. -/
theorem runBack_apply_ne (g : List Value) :
    ∀ (l : List Nat) (m : Nat → ℚ) (n : Nat),
      (∀ v ∈ l, n ∉ rawOperands (opOf g v)) → runBack g l m n = m n := by
  intro l
  induction l with
  | nil => intro m n _; rfl
  | cons v l ih =>
      intro m n h
      have h1 : runBack g (v :: l) m = runBack g l (backStep g m v) := rfl
      rw [h1, ih (backStep g m v) n (fun w hw => h w (List.mem_cons_of_mem v hw)),
        backStep_apply_ne g m v n (h v (List.mem_cons_self v l))]

/-- Splitting a propagation run over an appended order. -/
theorem runBack_append (g : List Value) (l1 l2 : List Nat) (m : Nat → ℚ) :
    runBack g (l1 ++ l2) m = runBack g l2 (runBack g l1 m) := by
  simp [runBack, List.foldl_append]

/-- A propagation run over a single node is firing that node. -/
theorem runBack_single (g : List Value) (v : Nat) (m : Nat → ℚ) :
    runBack g [v] m = backStep g m v := rfl

/-- An additive update with equal amounts preserves pointwise agreement on
any index collection. -/
theorem bump_congr_on (T : List Nat) (m m2 : Nat → ℚ) (l : Nat) (a : ℚ)
    (h : ∀ x ∈ T, m x = m2 x) : ∀ x ∈ T, bump m l a x = bump m2 l a x := by
  intro x hx
  unfold bump
  by_cases hxl : x = l
  · subst hxl
    simp [h x hx]
  · simp [hxl, h x hx]

/-- Firing one node of the collection preserves pointwise agreement on the
collection, because every accumulator it reads is its own or the written
one. -/
theorem backStep_congr (g : List Value) (T : List Nat) (m m2 : Nat → ℚ) (v : Nat)
    (hv : v ∈ T) (h : ∀ x ∈ T, m x = m2 x) :
    ∀ x ∈ T, backStep g m v x = backStep g m2 v x := by
  intro x hx
  unfold backStep
  have hv2 : m v = m2 v := h v hv
  cases opOf g v with
  | leaf => exact h x hx
  | add l r =>
      simp only [backStepAux]
      rw [← hv2]
      have h1 : ∀ y ∈ T, bump m l (m v) y = bump m2 l (m v) y :=
        bump_congr_on T m m2 l (m v) h
      rw [← h1 v hv]
      exact bump_congr_on T _ _ r _ h1 x hx
  | mul l r =>
      simp only [backStepAux]
      rw [← hv2]
      have h1 : ∀ y ∈ T, bump m l (dataOf g r * m v) y = bump m2 l (dataOf g r * m v) y :=
        bump_congr_on T m m2 l (dataOf g r * m v) h
      rw [← h1 v hv]
      exact bump_congr_on T _ _ r _ h1 x hx
  | pow b e =>
      simp only [backStepAux]
      rw [← hv2]
      exact bump_congr_on T m m2 b _ h x hx
  | relu a =>
      simp only [backStepAux]
      rw [← hv2]
      exact bump_congr_on T m m2 a _ h x hx

/-- A whole propagation run over nodes of the collection preserves
pointwise agreement on the collection. -/
theorem runBack_congr (g : List Value) (T : List Nat) :
    ∀ (l : List Nat) (m m2 : Nat → ℚ), (∀ v ∈ l, v ∈ T) → (∀ x ∈ T, m x = m2 x) →
      ∀ x ∈ T, runBack g l m x = runBack g l m2 x := by
  intro l
  induction l with
  | nil => intro m m2 _ h x hx; exact h x hx
  | cons v l ih =>
      intro m m2 hl h x hx
      have h1 : ∀ y ∈ T, backStep g m v y = backStep g m2 v y :=
        backStep_congr g T m m2 v (hl v (List.mem_cons_self v l)) h
      exact ih (backStep g m v) (backStep g m2 v)
        (fun w hw => hl w (List.mem_cons_of_mem v hw)) h1 x hx

/-- An additive update preserves two maps agreeing everywhere except at one
index where they differ by a constant offset. -/
theorem bump_skew (m m2 : Nat → ℚ) (n : Nat) (d : ℚ) (l : Nat) (a : ℚ)
    (h1 : ∀ x, x ≠ n → m x = m2 x) (h2 : m n = m2 n + d) :
    (∀ x, x ≠ n → bump m l a x = bump m2 l a x) ∧ bump m l a n = bump m2 l a n + d := by
  constructor
  · intro x hxn
    unfold bump
    by_cases hxl : x = l
    · subst hxl
      simp [h1 x hxn]
    · simp [hxl, h1 x hxn]
  · by_cases hnl : n = l
    · subst hnl
      have e1 : bump m n a n = m n + a := by simp [bump]
      have e2 : bump m2 n a n = m2 n + a := by simp [bump]
      rw [e1, e2, h2]
      ring
    · have e1 : bump m l a n = m n := by simp [bump, hnl]
      have e2 : bump m2 l a n = m2 n := by simp [bump, hnl]
      rw [e1, e2, h2]

/-- Firing a node other than n preserves the one-index offset at n: all the
accumulators the closure reads agree between the two runs. -/
theorem backStep_skew (g : List Value) (m m2 : Nat → ℚ) (n v : Nat) (d : ℚ) (hvn : v ≠ n)
    (h1 : ∀ x, x ≠ n → m x = m2 x) (h2 : m n = m2 n + d) :
    (∀ x, x ≠ n → backStep g m v x = backStep g m2 v x) ∧
      backStep g m v n = backStep g m2 v n + d := by
  unfold backStep
  have hv2 : m v = m2 v := h1 v hvn
  cases opOf g v with
  | leaf => exact ⟨h1, h2⟩
  | add l r =>
      simp only [backStepAux]
      rw [← hv2]
      have hb1 := bump_skew m m2 n d l (m v) h1 h2
      rw [← hb1.1 v hvn]
      exact bump_skew _ _ n d r _ hb1.1 hb1.2
  | mul l r =>
      simp only [backStepAux]
      rw [← hv2]
      have hb1 := bump_skew m m2 n d l (dataOf g r * m v) h1 h2
      rw [← hb1.1 v hvn]
      exact bump_skew _ _ n d r _ hb1.1 hb1.2
  | pow b e =>
      simp only [backStepAux]
      rw [← hv2]
      exact bump_skew m m2 n d b _ h1 h2
  | relu a =>
      simp only [backStepAux]
      rw [← hv2]
      exact bump_skew m m2 n d a _ h1 h2

/-- A propagation run that never fires n preserves the one-index offset at
n. -/
theorem runBack_skew (g : List Value) (n : Nat) (d : ℚ) :
    ∀ (l : List Nat) (m m2 : Nat → ℚ), (∀ v ∈ l, v ≠ n) →
      (∀ x, x ≠ n → m x = m2 x) → m n = m2 n + d →
      (∀ x, x ≠ n → runBack g l m x = runBack g l m2 x) ∧
        runBack g l m n = runBack g l m2 n + d := by
  intro l
  induction l with
  | nil => intro m m2 _ h1 h2; exact ⟨h1, h2⟩
  | cons v l ih =>
      intro m m2 hl h1 h2
      have hs := backStep_skew g m m2 n v d (hl v (List.mem_cons_self v l)) h1 h2
      exact ih (backStep g m v) (backStep g m2 v)
        (fun w hw => hl w (List.mem_cons_of_mem v hw)) hs.1 hs.2

/-- C7: frame behaviour of the backward driver on any well-formed graph and
any prior gradient assignment.  The driver assigns 1 only to the root's
accumulator; every other reachable node ends with its prior value plus the
contributions the traversal adds (the added amount is exactly what the same
pass computes when that node's own prior is zeroed, since a node's own
accumulator is read only after every consumer has fired); nodes the
traversal does not reach keep their prior value exactly. -/
theorem backward_seeds_root_and_accumulates (g : List Value) (root : Nat) (m : Nat → ℚ)
    (hWF : WFb g = true) (hroot : root < g.length) :
    backward g root m root = 1 ∧
    (∀ n, n ∈ (buildTopo g root).2 → n ≠ root →
      backward g root m n = m n + backward g root (setg m n 0) n) ∧
    (∀ n, n ∉ (buildTopo g root).2 → backward g root m n = m n) := by
  obtain ⟨hnd, hpost, hrin, hbounds⟩ := buildTopo_spec g root hWF hroot
  have hops := wfb_ops g hWF
  refine ⟨?_, ?_, ?_⟩
  · have hner : ∀ v ∈ (buildTopo g root).2.reverse, root ∉ rawOperands (opOf g v) := by
      intro v hv hraw
      have hvtopo := List.mem_reverse.mp hv
      have hb := hbounds v hvtopo
      have := hops v hb.2 root hraw
      omega
    unfold backward
    rw [runBack_apply_ne g _ _ root hner]
    simp [setg]
  · intro n hn hnroot
    obtain ⟨pre, post, hsplit⟩ := List.append_of_mem hn
    have hnd2 : (pre ++ n :: post).Nodup := hsplit ▸ hnd
    rw [List.nodup_append] at hnd2
    have hnpre : n ∉ pre := fun h => hnd2.2.2 h (List.mem_cons_self n post)
    have hnpost : n ∉ post := (List.nodup_cons.mp hnd2.2.1).1
    have hnb := hbounds n hn
    have hrev : (buildTopo g root).2.reverse = post.reverse ++ ([n] ++ pre.reverse) := by
      rw [hsplit]
      simp
    have hpostne : ∀ v ∈ post.reverse, v ≠ n := by
      intro v hv hvn
      exact hnpost (hvn ▸ List.mem_reverse.mp hv)
    have hselfne : n ∉ rawOperands (opOf g n) := by
      intro hraw
      have := hops n hnb.2 n hraw
      omega
    have hCne : ∀ v ∈ pre.reverse, n ∉ rawOperands (opOf g v) := by
      intro v hv hraw
      have hvpre := List.mem_reverse.mp hv
      obtain ⟨p1, p2, hp⟩ := List.append_of_mem hvpre
      have hdec : (buildTopo g root).2 = p1 ++ v :: (p2 ++ n :: post) := by
        rw [hsplit, hp]
        simp
      have := postList_decomp hpost hdec n (mem_childrenOf.mpr hraw)
      exact hnpre (hp ▸ List.mem_append_left (v :: p2) this)
    have h1 : ∀ x, x ≠ n →
        setg m root 1 x = setg (setg m n 0) root 1 x := by
      intro x hx
      simp [setg, hx]
    have h2 : setg m root 1 n = setg (setg m n 0) root 1 n + m n := by
      simp [setg, hnroot]
    have hA := runBack_skew g n (m n) post.reverse
      (setg m root 1) (setg (setg m n 0) root 1) hpostne h1 h2
    have e1 : backward g root m n =
        runBack g pre.reverse
          (backStep g (runBack g post.reverse (setg m root 1)) n) n := by
      unfold backward
      rw [hrev, runBack_append, runBack_append, runBack_single]
    have e2 : backward g root (setg m n 0) n =
        runBack g pre.reverse
          (backStep g (runBack g post.reverse (setg (setg m n 0) root 1)) n) n := by
      unfold backward
      rw [hrev, runBack_append, runBack_append, runBack_single]
    rw [e1, e2, runBack_apply_ne g pre.reverse _ n hCne,
      runBack_apply_ne g pre.reverse _ n hCne,
      backStep_apply_ne g _ n n hselfne, backStep_apply_ne g _ n n hselfne,
      hA.2]
    ring
  · intro n hn
    have hner : ∀ v ∈ (buildTopo g root).2.reverse, n ∉ rawOperands (opOf g v) := by
      intro v hv hraw
      exact hn (postList_closed hpost v (List.mem_reverse.mp hv) n
        (mem_childrenOf.mpr hraw))
    have hnr : n ≠ root := fun h => hn (h ▸ hrin)
    unfold backward
    rw [runBack_apply_ne g _ _ n hner]
    simp [setg, hnr]

/-- Witness for C7 on the concrete fan-out graph with a nonzero prior on
the intermediate node 3: the root ends at 1, node 3 ends at its prior plus
the traversal's contribution, and the unreachable identity 9 is untouched. -/
theorem backward_seeds_root_and_accumulates_witness :
    backward (fanoutGraph 2 3 4) 5 priorGrads 5 = 1 ∧
    backward (fanoutGraph 2 3 4) 5 priorGrads 3 =
      priorGrads 3 + backward (fanoutGraph 2 3 4) 5 (setg priorGrads 3 0) 3 ∧
    backward (fanoutGraph 2 3 4) 5 priorGrads 9 = priorGrads 9 := by
  have h := backward_seeds_root_and_accumulates (fanoutGraph 2 3 4) 5 priorGrads
    (by decide) (by decide)
  exact ⟨h.1, h.2.1 3 (by decide) (by decide), h.2.2 9 (by decide)⟩

/-- C2 amended: when the parameter collection handed to zero_grad covers
every node reachable from the root except possibly the root itself, the
sequence backward, zero_grad, backward reproduces the first run's gradients
at every single identity.  (The counterexample shows the cover condition is
necessary: an intermediate node outside the parameters keeps a stale
accumulator and the second run differs.) -/
theorem zero_grad_all_reachable_backward_idempotent (g : List Value) (root : Nat)
    (P : List Nat) (hWF : WFb g = true) (hroot : root < g.length)
    (hcover : ∀ n ∈ (buildTopo g root).2, n = root ∨ n ∈ P) (n : Nat) :
    backward g root (zeroGrad P (backward g root (fun _ => 0))) n =
      backward g root (fun _ => 0) n := by
  obtain ⟨hnd, hpost, hrin, hbounds⟩ := buildTopo_spec g root hWF hroot
  have hz : ∀ (ps : List Nat) (m : Nat → ℚ) (x : Nat),
      zeroGrad ps m x = if x ∈ ps then 0 else m x := by
    intro ps
    induction ps with
    | nil => intro m x; simp [zeroGrad]
    | cons p ps ih =>
        intro m x
        have hc : zeroGrad (p :: ps) m = zeroGrad ps (setg m p 0) := rfl
        rw [hc, ih]
        by_cases hx : x ∈ ps
        · simp [hx]
        · by_cases hxp : x = p
          · subst hxp
            simp [hx, setg]
          · simp [hx, hxp, setg]
  by_cases hn : n ∈ (buildTopo g root).2
  · have hM : ∀ x ∈ (buildTopo g root).2,
        setg (zeroGrad P (backward g root (fun _ => 0))) root 1 x =
          setg (fun _ => 0) root 1 x := by
      intro x hx
      by_cases hxr : x = root
      · simp [setg, hxr]
      · rcases hcover x hx with h | h
        · exact absurd h hxr
        · simp [setg, hxr, hz, h]
    exact runBack_congr g (buildTopo g root).2 (buildTopo g root).2.reverse
      _ _ (fun v hv => List.mem_reverse.mp hv) hM n hn
  · have hner : ∀ v ∈ (buildTopo g root).2.reverse, n ∉ rawOperands (opOf g v) := by
      intro v hv hraw
      exact hn (postList_closed hpost v (List.mem_reverse.mp hv) n
        (mem_childrenOf.mpr hraw))
    have hnr : n ≠ root := fun h => hn (h ▸ hrin)
    have e2 : backward g root (fun _ => 0) n = 0 := by
      unfold backward
      rw [runBack_apply_ne g _ _ n hner]
      simp [setg, hnr]
    have e1 : backward g root (zeroGrad P (backward g root (fun _ => 0))) n =
        zeroGrad P (backward g root (fun _ => 0)) n := by
      unfold backward
      rw [runBack_apply_ne g _ _ n hner]
      simp [setg, hnr]
    rw [e1, e2, hz]
    by_cases hnp : n ∈ P
    · simp [hnp]
    · simp [hnp, e2]

/-- Witness for the amended C2 on the two-parameter flat graph with
parameters 0 and 1 feeding the root 2 directly: the second run reproduces
the first run's gradient at parameter 0. -/
theorem zero_grad_all_reachable_backward_idempotent_witness :
    backward flatGraph 2 (zeroGrad [0, 1] (backward flatGraph 2 (fun _ => 0))) 0 =
      backward flatGraph 2 (fun _ => 0) 0 :=
  zero_grad_all_reachable_backward_idempotent flatGraph 2 [0, 1]
    (by decide) (by decide) (by decide) 0
